import Mathlib

/-!
Shallow embedding of the schema-merge / conflict-detection engine of
`src/model_composer/composer.py`: `prettify_type`, `merge_payloads`,
`payload_model_to_json`, `generate_payload_reports`.

Python type annotations are modelled by `Ty`: a named type, or a typing
union whose members (after Python flattening and dedup at construction)
are atoms — the `None` type or a named type.  Python compares typing
unions structurally and order-insensitively (`Union[A, B] == Union[B, A]`),
so base-type comparison below uses the set-equality predicate `tyEq`.

A pydantic field carries a default (`PydanticUndefined` or a value) and
metadata pairs; both supported declaration protocols (pydantic v2
`model_fields` and v1 `__fields__`) yield to the loop of
`merge_payloads` the same tuple `(raw, required, info, src)`, which is
`Contribution` here.  A class with neither attribute matches no branch
of the extractor and contributes nothing.
-/

/-- Runtime values that can appear as pydantic defaults or metadata. -/
inductive Val where
  | null
  | str (s : String)
  | int (n : Int)
  | bool (b : Bool)
deriving DecidableEq, Repr

/-- A member of a (flattened) typing union: `None` or a named type. -/
inductive UAtom where
  | null
  | named (s : String)
deriving DecidableEq, Repr

/-- A Python type annotation: named type, or flattened typing union. -/
inductive Ty where
  | named (s : String)
  | union (args : List UAtom)
deriving DecidableEq, Repr

/-- View a union member as a standalone annotation (`type(None)` has
`__name__ = "NoneType"`). -/
def atomTy : UAtom → Ty
  | .null => Ty.named "NoneType"
  | .named s => Ty.named s

/-- Display form of a union member under `prettify_type`. -/
def prettifyAtom : UAtom → String
  | .null => "NoneType"
  | .named s => s

/-- The non-`None` members of a union
(`[a for a in get_args(tp) if a is not type(None)]`). -/
def nonNullArgs (args : List UAtom) : List UAtom :=
  args.filter (fun a => !(a == UAtom.null))

/-- Embeds `prettify_type`: unwrap `Optional[T]` to `T`, join union members with
  " or ", use `__name__` for named types. -/
def prettify_type : Ty → String
  | .named s => s
  | .union args =>
    match nonNullArgs args with
    | [a] => prettifyAtom a
    | nn => String.intercalate " or " (nn.map prettifyAtom)

/-- Python structural equality on annotations: typing unions compare as
sets of members; a union never equals a plain named type. -/
def tyEq : Ty → Ty → Bool
  | .named s, .named t => s == t
  | .union xs, .union ys =>
    xs.all (fun a => ys.contains a) && ys.all (fun a => xs.contains a)
  | _, _ => false

/-- Builds `Optional[T]` as Python does: add `None` to the member set
(flattening a union argument, no-op if `None` is already present). -/
def mkOptionalTy : Ty → Ty
  | .named s => Ty.union [UAtom.named s, UAtom.null]
  | .union args =>
    if args.contains UAtom.null then Ty.union args
    else Ty.union (args ++ [UAtom.null])

/-- A pydantic default: `PydanticUndefined` or an explicit value. -/
inductive PyDefault where
  | undefined
  | val (v : Val)
deriving DecidableEq, Repr

/-- The slice of a pydantic `FieldInfo` the engine reads: default and
metadata pairs (both protocols expose these attributes). -/
structure FieldInfoM where
  default : PyDefault
  metadata : List (String × Val)
deriving DecidableEq, Repr

/-- One entry of the aggregated `fields` dict:
`(info.annotation, info.is_required(), info, cls.__name__)`. -/
structure Contribution where
  raw : Ty
  required : Bool
  info : FieldInfoM
  src : String
deriving DecidableEq, Repr

/-- Which field-declaration protocol a class exposes: pydantic v2
(`model_fields`), pydantic v1 (`__fields__`), or neither. -/
inductive SchemaKind where
  | v2
  | v1
  | other
deriving DecidableEq, Repr

/-- One declared field of an input class. -/
structure FieldDecl where
  name : String
  raw : Ty
  required : Bool
  info : FieldInfoM
deriving DecidableEq, Repr

/-- An input schema class (sub payload or spec payload). -/
structure Schema where
  name : String
  kind : SchemaKind
  decls : List FieldDecl
deriving DecidableEq, Repr

/-- The aggregated `fields` dict: insertion-ordered field name to the
ordered list of contributions. -/
abbrev FieldMap := List (String × List Contribution)

/-- Embeds `fields.setdefault(name, []).append(entry)` on an insertion-ordered
dict. -/
def addContribution (m : FieldMap) (name : String) (c : Contribution) : FieldMap :=
  match m with
  | [] => [(name, [c])]
  | (n, cs) :: rest =>
    if n = name then (n, cs ++ [c]) :: rest
    else (n, cs) :: addContribution rest name c

/-- The collection loop of `merge_payloads` / `generate_payload_reports`:
for each class in `(*subpayloads, *specpayloads)`, if it exposes a
recognized protocol append each of its fields; a class exposing neither
protocol matches no branch and is skipped. -/
def collectFields (schemas : List Schema) : FieldMap :=
  schemas.foldl
    (fun m cls =>
      match cls.kind with
      | .other => m
      | _ =>
        cls.decls.foldl
          (fun m d => addContribution m d.name ⟨d.raw, d.required, d.info, cls.name⟩)
          m)
    []

/-- Embeds `spec_names = \x7bsp.__name__ for sp in specpayloads\x7d` (membership is
all the set is used for, so a list suffices). -/
def specSchemaNames (specs : List Schema) : List String :=
  specs.map Schema.name

/-- The normalized base type of one contribution: a union containing
`None` with a single other member unwraps to that member; a union
containing `None` with several other members stays the raw union;
everything else stays raw. -/
def fieldBase (c : Contribution) : Ty :=
  match c.raw with
  | .union args =>
    if args.contains UAtom.null then
      match nonNullArgs args with
      | [a] => atomTy a
      | _ => c.raw
    else c.raw
  | t => t

/-- Embeds `made_optional` for one contribution: its raw annotation is a union
containing `None`. -/
def fieldMadeOptional (c : Contribution) : Bool :=
  match c.raw with
  | .union args => args.contains UAtom.null
  | _ => false

/-- Embeds `spec_requires`: some contribution from a spec class is required. -/
def specRequires (specNames : List String) (defs : List Contribution) : Bool :=
  defs.any (fun c => specNames.contains c.src && c.required)

/-- Embeds `bad_subs`: sources whose contribution was made optional and which
are not spec classes. -/
def badSubs (specNames : List String) (defs : List Contribution) : List String :=
  (defs.filter (fun c => fieldMadeOptional c && !specNames.contains c.src)).map
    Contribution.src

/-- Insert distinct representatives, Python-set style, using `tyEq`. -/
def insertDistinct (acc : List Ty) (t : Ty) : List Ty :=
  if acc.any (tyEq t) then acc else t :: acc

/-- The distinct base types (`{*base_types}` up to Python equality). -/
def distinctTypes (ts : List Ty) : List Ty :=
  ts.foldl insertDistinct []

/-- Embeds `len(\x7b*base_types\x7d) > 1`. -/
def hasTypeMismatch (defs : List Contribution) : Bool :=
  decide (1 < (distinctTypes (defs.map fieldBase)).length)

/-- Snapshot of one source in a conflict report. -/
structure ConflictField where
  field_type : String
  required : Bool
deriving DecidableEq, Repr

/-- Upsert into an insertion-ordered dict (a repeated key keeps its
position but takes the new value, as a Python dict comprehension does). -/
def upsertCF (m : List (String × ConflictField)) (k : String) (v : ConflictField) :
    List (String × ConflictField) :=
  match m with
  | [] => [(k, v)]
  | (n, w) :: rest =>
    if n = k then (n, v) :: rest
    else (n, w) :: upsertCF rest k v

/-- The `models` dict of a report: source name to display-type/required
snapshot, over every contribution of the field. -/
def modelsOf (defs : List Contribution) : List (String × ConflictField) :=
  defs.foldl (fun m c => upsertCF m c.src ⟨prettify_type c.raw, c.required⟩) []

/-- A `MergeReport` (one conflict finding). -/
structure MergeReport where
  field_name : String
  issue : String
  models : List (String × ConflictField)
deriving DecidableEq, Repr

/-- The per-field conflict analysis: the type-mismatch check first, then
(only if it did not fire) the spec-violation check. -/
def findingFor (specNames : List String) (name : String) (defs : List Contribution) :
    Option MergeReport :=
  if hasTypeMismatch defs then
    some ⟨name, "type_mismatch", modelsOf defs⟩
  else if specRequires specNames defs && !(badSubs specNames defs).isEmpty then
    some ⟨name, "spec_violation", modelsOf defs⟩
  else
    none

/-- The default passed to `Field(...)` when building a core field:
`...` (Ellipsis, the required marker) or an explicit value. -/
inductive MergeDefault where
  | ellipsis
  | val (v : Val)
deriving DecidableEq, Repr

/-- Upsert into the `extras` dict. -/
def upsertVal (m : List (String × Val)) (k : String) (v : Val) :
    List (String × Val) :=
  match m with
  | [] => [(k, v)]
  | (n, w) :: rest =>
    if n = k then (n, v) :: rest
    else (n, w) :: upsertVal rest k v

/-- A built core field: the final annotation, the `Field` default, and
the extras dict. -/
structure CoreField where
  ann : Ty
  default : MergeDefault
  extras : List (String × Val)
deriving DecidableEq, Repr

/-- Placeholder contribution for the (unreachable) empty-aggregate case:
every list in a `FieldMap` built by `collectFields` is non-empty. -/
def dummyContribution : Contribution :=
  ⟨Ty.named "", false, ⟨PyDefault.undefined, []⟩, ""⟩

/-- Embeds `chosen_info`: the first contribution from a spec class, else the
first contribution. -/
def chosenInfo (specNames : List String) (defs : List Contribution) : FieldInfoM :=
  match defs.find? (fun c => specNames.contains c.src) with
  | some c => c.info
  | none => (defs.headD dummyContribution).info

/-- Embeds `final_optional = bool(bad_subs) and not spec_requires`. -/
def finalOptional (specNames : List String) (defs : List Contribution) : Bool :=
  !(badSubs specNames defs).isEmpty && !(specRequires specNames defs)

/-- Embeds `get_args(raw_type)[0]` on a union (unions Python builds are
non-empty; the empty case is unreachable and kept total). -/
def unionFirstArg : List UAtom → Ty
  | [] => Ty.union []
  | a :: _ => atomTy a

/-- Embeds `final_type = get_args(raw_type)[0] if final_optional and
get_origin(raw_type) is Union else raw_type`: note the guard tests only
that the first raw annotation is a union, and takes its first member
(not the non-`None` members). -/
def finalTypeOf (fo : Bool) (raw : Ty) : Ty :=
  if fo then
    match raw with
    | .union args => unionFirstArg args
    | t => t
  else raw

/-- The `Field(default, ...)` argument for a chosen info: both
protocols expose a `default` attribute, so the default is the chosen
info's default with `PydanticUndefined` mapped to Ellipsis (the
required marker). -/
def mergeDefaultOf (info : FieldInfoM) : MergeDefault :=
  match info.default with
  | .undefined => .ellipsis
  | .val v => .val v

/-- The core-field build for one conflict-free field (lines 116-130 of
`composer.py`): final annotation, `Field` default, and extras from the
chosen info's metadata pairs. -/
def buildCoreField (specNames : List String) (defs : List Contribution) : CoreField :=
  let fo := finalOptional specNames defs
  let info := chosenInfo specNames defs
  let dflt : MergeDefault := mergeDefaultOf info
  let extras := info.metadata.foldl (fun m kv => upsertVal m kv.1 kv.2) []
  let raw := (defs.headD dummyContribution).raw
  let ft := finalTypeOf fo raw
  ⟨if fo then mkOptionalTy ft else ft, dflt, extras⟩

/-- The analysis loop of `merge_payloads`: one pass over the field
aggregate accumulating conflict reports and core fields. -/
def mergeAnalysis (specNames : List String) (fm : FieldMap) :
    List MergeReport × List (String × CoreField) :=
  fm.foldl
    (fun acc p =>
      match findingFor specNames p.1 p.2 with
      | some r => (acc.1 ++ [r], acc.2)
      | none => (acc.1, acc.2 ++ [(p.1, buildCoreField specNames p.2)]))
    ([], [])

/-- One line of the abort message
(the per-source map is rendered without braces here; the exact Python
`repr` text is immaterial, one line per finding is what matters). -/
def formatReport (r : MergeReport) : String :=
  "- " ++ r.issue ++ " on '" ++ r.field_name ++ "': " ++
    String.intercalate ", "
      (r.models.map (fun p =>
        p.1 ++ "=ConflictField(field_type=" ++ p.2.field_type ++
          ", required=" ++ (if p.2.required then "True" else "False") ++ ")")) ++
    "\n"

/-- The full `PayloadMergeError` message: header plus one line per
finding, over the whole report list. -/
def mergeMessage (reports : List MergeReport) : String :=
  reports.foldl (fun m r => m ++ formatReport r) "Merge conflicts detected:\n"

/-- The created `CorePayload` model: caller-supplied names plus the
insertion-ordered core fields. -/
structure CoreSchema where
  core_name : String
  table_name : String
  fields : List (String × CoreField)
deriving DecidableEq, Repr

/-- Embeds `merge_payloads`: collect, analyze, abort with the formatted message
when any report exists, otherwise create the core model. -/
def merge_payloads (subpayloads specpayloads : List Schema)
    (core_name table_name : String) : Except String CoreSchema :=
  let specNames := specSchemaNames specpayloads
  let fm := collectFields (subpayloads ++ specpayloads)
  let res := mergeAnalysis specNames fm
  if res.1.isEmpty then
    .ok ⟨core_name, table_name, res.2⟩
  else
    .error (mergeMessage res.1)

/-- One field of the per-schema `definition` view. -/
structure FieldJson where
  ftype : String
  required : Bool
  default : Val
deriving DecidableEq, Repr

/-- How `payload_model_to_json` displays a default: `PydanticUndefined`
is rendered as `None` (pydantic v1 likewise stores `None` on a
no-default field), collapsing the no-default marker into an explicit
null default. -/
def displayDefault : PyDefault → Val
  | .undefined => .null
  | .val v => v

/-- The `definition` part of a per-schema report: each directly declared
field with display type, required flag and displayed default; a class
with an unrecognized protocol yields an empty definition. -/
def definitionView (cls : Schema) : List (String × FieldJson) :=
  match cls.kind with
  | .other => []
  | _ =>
    cls.decls.map (fun d =>
      (d.name, ⟨prettify_type d.raw, d.required, displayDefault d.info.default⟩))

/-- A per-schema report value (`{"definition": ..., "conflicts": ...}`;
the JSON conversion of a report keeps its fields verbatim, so reports
are reused here unchanged). -/
structure ReportJson where
  definition : List (String × FieldJson)
  conflicts : List MergeReport
deriving DecidableEq, Repr

/-- Embeds `payload_model_to_json`: the definition view plus the findings whose
`models` dict mentions this class's name (the `fields_data` argument is
unused, as in the source). -/
def payload_model_to_json (cls : Schema) (fields_data : FieldMap)
    (reports : List MergeReport) : ReportJson :=
  ⟨definitionView cls,
   reports.filter (fun r => (r.models.map Prod.fst).contains cls.name)⟩

/-- The analysis loop of `generate_payload_reports`: same per-field
checks as `merge_payloads`, collecting only the reports. -/
def reportAnalysis (specNames : List String) (fm : FieldMap) : List MergeReport :=
  fm.foldl
    (fun acc p =>
      match findingFor specNames p.1 p.2 with
      | some r => acc ++ [r]
      | none => acc)
    []

/-- Embeds `generate_payload_reports`: re-runs collection and analysis over the
same inputs and maps every input class name to its report value. -/
def generate_payload_reports (subpayloads specpayloads : List Schema) :
    List (String × ReportJson) :=
  let specNames := specSchemaNames specpayloads
  let fm := collectFields (subpayloads ++ specpayloads)
  let reports := reportAnalysis specNames fm
  (subpayloads ++ specpayloads).map
    (fun cls => (cls.name, payload_model_to_json cls fm reports))

/-! ### Concrete example inputs (used by witnesses and counterexamples) -/

/-- A pydantic info with no default (`PydanticUndefined`). -/
def infoReq : FieldInfoM := ⟨PyDefault.undefined, []⟩

/-- A pydantic info with an explicit default of `None`. -/
def infoNullDefault : FieldInfoM := ⟨PyDefault.val Val.null, []⟩

/-- Sub payload declaring `age : int`, required. -/
def subAgeInt : Schema := ⟨"AgeIntPayload", .v2, [⟨"age", Ty.named "int", true, infoReq⟩]⟩

/-- Sub payload declaring `age : str`, required. -/
def subAgeStr : Schema := ⟨"AgeStrPayload", .v2, [⟨"age", Ty.named "str", true, infoReq⟩]⟩

/-- Sub payload declaring `email : Optional[str] = None`. -/
def subContact : Schema :=
  ⟨"ContactPayload", .v2,
   [⟨"email", Ty.union [UAtom.named "str", UAtom.null], false, infoNullDefault⟩]⟩

/-- Spec payload declaring `email : str`, required. -/
def specRequiredUser : Schema :=
  ⟨"RequiredUserFields", .v2, [⟨"email", Ty.named "str", true, infoReq⟩]⟩

/-- Spec payload declaring `email : int`, required. -/
def specEmailInt : Schema :=
  ⟨"SpecIntPayload", .v2, [⟨"email", Ty.named "int", true, infoReq⟩]⟩

/-- Sub payload declaring `x : Union[str, int, None] = None`. -/
def subUnionNullable : Schema :=
  ⟨"UnionPayload", .v2,
   [⟨"x", Ty.union [UAtom.named "str", UAtom.named "int", UAtom.null], false, infoNullDefault⟩]⟩

/-- A class exposing neither `model_fields` nor `__fields__`. -/
def subLegacy : Schema := ⟨"LegacyPayload", .other, [⟨"f", Ty.named "str", true, infoReq⟩]⟩

/-- The aggregate entry for `age` over `subAgeInt, subAgeStr`. -/
def cAgeInt : Contribution := ⟨Ty.named "int", true, infoReq, "AgeIntPayload"⟩

def cAgeStr : Contribution := ⟨Ty.named "str", true, infoReq, "AgeStrPayload"⟩

def defsAge : List Contribution := [cAgeInt, cAgeStr]

/-- The optional `email` contribution of `subContact`. -/
def cEmailOpt : Contribution :=
  ⟨Ty.union [UAtom.named "str", UAtom.null], false, infoNullDefault, "ContactPayload"⟩

/-- The required `email` contribution of `specRequiredUser`. -/
def cEmailReq : Contribution := ⟨Ty.named "str", true, infoReq, "RequiredUserFields"⟩

def defsEmail : List Contribution := [cEmailOpt, cEmailReq]

/-- The required `email : int` contribution of `specEmailInt`. -/
def cEmailInt : Contribution := ⟨Ty.named "int", true, infoReq, "SpecIntPayload"⟩

/-- An aggregate exhibiting both a type mismatch and the
spec-violation condition at once. -/
def defsBoth : List Contribution := [cEmailOpt, cEmailInt]

/-- A contribution whose annotation is the nullable multi-member union
`Union[str, int, None]`. -/
def cNullableUnion : Contribution :=
  ⟨Ty.union [UAtom.named "str", UAtom.named "int", UAtom.null], false, infoNullDefault, "UnionPayload"⟩

/-! ### Properties of `tyEq` -/

theorem tyEq_refl (t : Ty) : tyEq t t = true := by
  cases t with
  | named s => simp [tyEq]
  | union xs => simp [tyEq, List.all_eq_true]

theorem tyEq_symm {s t : Ty} (h : tyEq s t = true) : tyEq t s = true := by
  cases s <;> cases t <;> simp_all [tyEq]

theorem tyEq_trans {s t u : Ty} (h1 : tyEq s t = true) (h2 : tyEq t u = true) :
    tyEq s u = true := by
  cases s <;> cases t <;> cases u <;> simp_all [tyEq, List.all_eq_true]

/-! ### Properties of `distinctTypes` -/

theorem insertDistinct_mem_mono {acc : List Ty} {u : Ty} (h : u ∈ acc) (t : Ty) :
    u ∈ insertDistinct acc t := by
  unfold insertDistinct
  split
  · exact h
  · exact List.mem_cons_of_mem _ h

theorem foldl_insertDistinct_mem_mono {u : Ty} (ts : List Ty) :
    ∀ acc : List Ty, u ∈ acc → u ∈ ts.foldl insertDistinct acc := by
  induction ts with
  | nil => intro acc h; exact h
  | cons t ts ih =>
    intro acc h
    exact ih (insertDistinct acc t) (insertDistinct_mem_mono h t)

theorem insertDistinct_rep (acc : List Ty) (t : Ty) :
    ∃ u ∈ insertDistinct acc t, tyEq t u = true := by
  unfold insertDistinct
  split
  case isTrue h =>
    obtain ⟨u, hu, he⟩ := List.any_eq_true.mp h
    exact ⟨u, hu, he⟩
  case isFalse h =>
    exact ⟨t, List.mem_cons_self t acc, tyEq_refl t⟩

theorem foldl_insertDistinct_rep (ts : List Ty) :
    ∀ acc : List Ty, ∀ t ∈ ts, ∃ u ∈ ts.foldl insertDistinct acc, tyEq t u = true := by
  induction ts with
  | nil => intro acc t ht; cases ht
  | cons a as ih =>
    intro acc t ht
    rcases List.mem_cons.mp ht with h | h
    · subst h
      obtain ⟨u, hu, he⟩ := insertDistinct_rep acc t
      exact ⟨u, foldl_insertDistinct_mem_mono as _ hu, he⟩
    · exact ih (insertDistinct acc a) t h

theorem distinctTypes_rep {ts : List Ty} {t : Ty} (h : t ∈ ts) :
    ∃ u ∈ distinctTypes ts, tyEq t u = true :=
  foldl_insertDistinct_rep ts [] t h

theorem hasTypeMismatch_of_pair {defs : List Contribution} {c1 c2 : Contribution}
    (h1 : c1 ∈ defs) (h2 : c2 ∈ defs)
    (hne : tyEq (fieldBase c1) (fieldBase c2) = false) :
    hasTypeMismatch defs = true := by
  unfold hasTypeMismatch
  by_contra h
  simp only [decide_eq_true_eq, not_lt] at h
  obtain ⟨u1, hu1, he1⟩ := distinctTypes_rep (List.mem_map_of_mem fieldBase h1)
  obtain ⟨u2, hu2, he2⟩ := distinctTypes_rep (List.mem_map_of_mem fieldBase h2)
  match hd : distinctTypes (defs.map fieldBase) with
  | [] =>
    rw [hd] at hu1
    cases hu1
  | [u] =>
    rw [hd] at hu1 hu2
    have e1 : u1 = u := by simpa using hu1
    have e2 : u2 = u := by simpa using hu2
    subst e1; subst e2
    have : tyEq (fieldBase c1) (fieldBase c2) = true :=
      tyEq_trans he1 (tyEq_symm he2)
    rw [hne] at this
    cases this
  | u :: v :: rest =>
    rw [hd] at h
    simp at h

/-! ### The analysis loops as filterMaps -/

theorem mergeAnalysis_loop (sn : List String) (fm : FieldMap) :
    ∀ acc : List MergeReport × List (String × CoreField),
      fm.foldl
        (fun acc p =>
          match findingFor sn p.1 p.2 with
          | some r => (acc.1 ++ [r], acc.2)
          | none => (acc.1, acc.2 ++ [(p.1, buildCoreField sn p.2)]))
        acc =
      (acc.1 ++ fm.filterMap (fun p => findingFor sn p.1 p.2),
       acc.2 ++ fm.filterMap (fun p =>
         match findingFor sn p.1 p.2 with
         | some _ => none
         | none => some (p.1, buildCoreField sn p.2))) := by
  induction fm with
  | nil => intro acc; simp
  | cons p ps ih =>
    intro acc
    rw [List.foldl_cons]
    cases hf : findingFor sn p.1 p.2 with
    | some r =>
      simp only [hf, ih, List.filterMap_cons, List.append_assoc, List.singleton_append]
    | none =>
      simp only [hf, ih, List.filterMap_cons, List.append_assoc, List.singleton_append]

theorem mergeAnalysis_eq (sn : List String) (fm : FieldMap) :
    mergeAnalysis sn fm =
      (fm.filterMap (fun p => findingFor sn p.1 p.2),
       fm.filterMap (fun p =>
         match findingFor sn p.1 p.2 with
         | some _ => none
         | none => some (p.1, buildCoreField sn p.2))) := by
  unfold mergeAnalysis
  rw [mergeAnalysis_loop]
  simp

theorem reportAnalysis_loop (sn : List String) (fm : FieldMap) :
    ∀ acc : List MergeReport,
      fm.foldl
        (fun acc p =>
          match findingFor sn p.1 p.2 with
          | some r => acc ++ [r]
          | none => acc)
        acc =
      acc ++ fm.filterMap (fun p => findingFor sn p.1 p.2) := by
  induction fm with
  | nil => intro acc; simp
  | cons p ps ih =>
    intro acc
    rw [List.foldl_cons]
    cases hf : findingFor sn p.1 p.2 with
    | some r =>
      simp only [hf, ih, List.filterMap_cons, List.append_assoc, List.singleton_append]
    | none =>
      simp only [hf, ih, List.filterMap_cons]

theorem reportAnalysis_eq (sn : List String) (fm : FieldMap) :
    reportAnalysis sn fm = fm.filterMap (fun p => findingFor sn p.1 p.2) := by
  unfold reportAnalysis
  rw [reportAnalysis_loop]
  simp

theorem analyses_agree (sn : List String) (fm : FieldMap) :
    reportAnalysis sn fm = (mergeAnalysis sn fm).1 := by
  rw [reportAnalysis_eq, mergeAnalysis_eq]

theorem mem_merge_reports {sn : List String} {fm : FieldMap} {r : MergeReport} :
    r ∈ (mergeAnalysis sn fm).1 ↔ ∃ p, p ∈ fm ∧ findingFor sn p.1 p.2 = some r := by
  rw [mergeAnalysis_eq]
  exact List.mem_filterMap

/-! ### Shape of individual findings -/

theorem findingFor_some_shape {sn : List String} {n : String} {defs : List Contribution}
    {r : MergeReport} (h : findingFor sn n defs = some r) :
    r.field_name = n ∧ r.models = modelsOf defs ∧
      (r.issue = "type_mismatch" ∨ r.issue = "spec_violation") := by
  unfold findingFor at h
  split at h
  · cases h
    exact ⟨rfl, rfl, Or.inl rfl⟩
  · split at h
    · cases h
      exact ⟨rfl, rfl, Or.inr rfl⟩
    · cases h

theorem findingFor_of_mismatch {sn : List String} {n : String} {defs : List Contribution}
    (h : hasTypeMismatch defs = true) :
    findingFor sn n defs = some ⟨n, "type_mismatch", modelsOf defs⟩ := by
  unfold findingFor
  rw [if_pos h]

/-! ### Coverage and soundness of the per-source snapshot -/

theorem upsertCF_keys_mono {m : List (String × ConflictField)} {k0 : String}
    (h : k0 ∈ m.map Prod.fst) (k : String) (v : ConflictField) :
    k0 ∈ (upsertCF m k v).map Prod.fst := by
  induction m with
  | nil => cases h
  | cons p rest ih =>
    obtain ⟨n, w⟩ := p
    unfold upsertCF
    split
    · simpa using h
    · simp only [List.map_cons, List.mem_cons] at h ⊢
      rcases h with h0 | h0
      · exact Or.inl h0
      · exact Or.inr (ih h0)

theorem upsertCF_key_self (m : List (String × ConflictField)) (k : String)
    (v : ConflictField) : k ∈ (upsertCF m k v).map Prod.fst := by
  induction m with
  | nil => simp [upsertCF]
  | cons p rest ih =>
    obtain ⟨n, w⟩ := p
    unfold upsertCF
    split
    case isTrue he => simp [he]
    case isFalse he => simpa using Or.inr ih

theorem modelsOf_loop_keys (defs : List Contribution) :
    ∀ acc : List (String × ConflictField),
      (∀ k ∈ acc.map Prod.fst,
        k ∈ (defs.foldl (fun m c => upsertCF m c.src ⟨prettify_type c.raw, c.required⟩) acc).map
          Prod.fst) ∧
      (∀ c ∈ defs,
        c.src ∈ (defs.foldl (fun m c => upsertCF m c.src ⟨prettify_type c.raw, c.required⟩) acc).map
          Prod.fst) := by
  induction defs with
  | nil =>
    intro acc
    exact ⟨fun k hk => hk, fun c hc => absurd hc (List.not_mem_nil c)⟩
  | cons d ds ih =>
    intro acc
    constructor
    · intro k hk
      rw [List.foldl_cons]
      exact (ih _).1 k (upsertCF_keys_mono hk _ _)
    · intro c hc
      rw [List.foldl_cons]
      rcases List.mem_cons.mp hc with h | h
      · subst h
        exact (ih _).1 c.src (upsertCF_key_self acc _ _)
      · exact (ih _).2 c h

theorem modelsOf_covers {defs : List Contribution} {c : Contribution} (h : c ∈ defs) :
    ∃ cf, (c.src, cf) ∈ modelsOf defs := by
  have hk := (modelsOf_loop_keys defs []).2 c h
  obtain ⟨p, hp, he⟩ := List.mem_map.mp hk
  exact ⟨p.2, by rwa [show (c.src, p.2) = p from Prod.ext he.symm rfl]⟩

theorem upsertCF_sound {m : List (String × ConflictField)} {k : String}
    {v : ConflictField} {P : String × ConflictField → Prop}
    (hm : ∀ p ∈ m, P p) (hkv : P (k, v)) :
    ∀ p ∈ upsertCF m k v, P p := by
  induction m with
  | nil =>
    intro p hp
    simp only [upsertCF, List.mem_singleton] at hp
    exact hp ▸ hkv
  | cons q rest ih =>
    obtain ⟨n, w⟩ := q
    intro p hp
    unfold upsertCF at hp
    split at hp
    case isTrue he =>
      rcases List.mem_cons.mp hp with h0 | h0
      · subst h0; exact he ▸ hkv
      · exact hm _ (List.mem_cons_of_mem _ h0)
    case isFalse he =>
      rcases List.mem_cons.mp hp with h0 | h0
      · exact h0 ▸ hm _ (List.mem_cons_self _ _)
      · exact ih (fun q hq => hm q (List.mem_cons_of_mem _ hq)) p h0

theorem modelsOf_loop_sound (P : String × ConflictField → Prop)
    (defs : List Contribution) :
    ∀ acc : List (String × ConflictField),
      (∀ p ∈ acc, P p) →
      (∀ c ∈ defs, P (c.src, ⟨prettify_type c.raw, c.required⟩)) →
      ∀ p ∈ defs.foldl (fun m c => upsertCF m c.src ⟨prettify_type c.raw, c.required⟩) acc,
        P p := by
  induction defs with
  | nil => intro acc hacc _ p hp; exact hacc p hp
  | cons d ds ih =>
    intro acc hacc hdefs p hp
    rw [List.foldl_cons] at hp
    refine ih _ ?_ (fun c hc => hdefs c (List.mem_cons_of_mem _ hc)) p hp
    exact upsertCF_sound hacc (hdefs d (List.mem_cons_self _ _))

theorem modelsOf_sound {defs : List Contribution} :
    ∀ p ∈ modelsOf defs,
      ∃ c ∈ defs, p.1 = c.src ∧ p.2 = ⟨prettify_type c.raw, c.required⟩ := by
  refine modelsOf_loop_sound _ defs [] (fun p hp => absurd hp (List.not_mem_nil p)) ?_
  intro c hc
  exact ⟨c, hc, rfl, rfl⟩

/-! ### Invariants of the aggregation loop -/

theorem foldl_preserve_mem {α β : Type _} (f : β → α → β) (P : β → Prop) (l : List α)
    (hf : ∀ b a, a ∈ l → P b → P (f b a)) : ∀ b, P b → P (l.foldl f b) := by
  induction l with
  | nil => intro b hb; exact hb
  | cons a as ih =>
    intro b hb
    rw [List.foldl_cons]
    exact ih (fun b' a' ha' hb' => hf b' a' (List.mem_cons_of_mem _ ha') hb') _
      (hf b a (List.mem_cons_self _ _) hb)

theorem addContribution_inv {Q : Contribution → Prop} {m : FieldMap} {n : String}
    {c : Contribution} (hm : ∀ p ∈ m, p.2 ≠ [] ∧ ∀ x ∈ p.2, Q x) (hc : Q c) :
    ∀ p ∈ addContribution m n c, p.2 ≠ [] ∧ ∀ x ∈ p.2, Q x := by
  induction m with
  | nil =>
    intro p hp
    simp only [addContribution, List.mem_singleton] at hp
    subst hp
    refine ⟨by simp, ?_⟩
    intro x hx
    simp only [List.mem_singleton] at hx
    exact hx ▸ hc
  | cons q rest ih =>
    obtain ⟨n0, cs⟩ := q
    intro p hp
    unfold addContribution at hp
    split at hp
    case isTrue he =>
      rcases List.mem_cons.mp hp with h0 | h0
      · subst h0
        refine ⟨by simp, ?_⟩
        intro x hx
        rcases List.mem_append.mp hx with hx0 | hx0
        · exact (hm _ (List.mem_cons_self _ _)).2 x hx0
        · simp only [List.mem_singleton] at hx0
          exact hx0 ▸ hc
      · exact hm _ (List.mem_cons_of_mem _ h0)
    case isFalse he =>
      rcases List.mem_cons.mp hp with h0 | h0
      · exact h0 ▸ hm _ (List.mem_cons_self _ _)
      · exact ih (fun q hq => hm q (List.mem_cons_of_mem _ hq)) p h0

theorem collectFields_inv (ss : List Schema) :
    ∀ p ∈ collectFields ss, p.2 ≠ [] ∧ ∀ c ∈ p.2, c.src ∈ ss.map Schema.name := by
  unfold collectFields
  have base : ∀ p ∈ ([] : FieldMap), p.2 ≠ [] ∧ ∀ c ∈ p.2, c.src ∈ ss.map Schema.name :=
    fun p hp => absurd hp (List.not_mem_nil p)
  refine foldl_preserve_mem _
    (fun (m : FieldMap) => ∀ p ∈ m, p.2 ≠ [] ∧ ∀ c ∈ p.2, c.src ∈ ss.map Schema.name) ss ?_ [] base
  intro b a ha hb
  cases hk : a.kind with
  | other => simpa [hk] using hb
  | v2 =>
    simp only [hk]
    refine foldl_preserve_mem _
      (fun (m : FieldMap) => ∀ p ∈ m, p.2 ≠ [] ∧ ∀ c ∈ p.2, c.src ∈ ss.map Schema.name) a.decls ?_ b hb
    intro b' d _ hb'
    exact addContribution_inv hb' (List.mem_map_of_mem Schema.name ha)
  | v1 =>
    simp only [hk]
    refine foldl_preserve_mem _
      (fun (m : FieldMap) => ∀ p ∈ m, p.2 ≠ [] ∧ ∀ c ∈ p.2, c.src ∈ ss.map Schema.name) a.decls ?_ b hb
    intro b' d _ hb'
    exact addContribution_inv hb' (List.mem_map_of_mem Schema.name ha)

theorem addContribution_keys (m : FieldMap) (n : String) (c : Contribution) :
    (addContribution m n c).map Prod.fst =
      if n ∈ m.map Prod.fst then m.map Prod.fst else m.map Prod.fst ++ [n] := by
  induction m with
  | nil => simp [addContribution]
  | cons q rest ih =>
    obtain ⟨n0, cs⟩ := q
    unfold addContribution
    split
    case isTrue he => subst he; simp
    case isFalse he =>
      have hne : ¬ n = n0 := fun h => he h.symm
      simp only [List.map_cons, ih]
      by_cases hn : n ∈ rest.map Prod.fst
      · simp [hn, hne]
      · simp [hn, hne]

theorem addContribution_nodup {m : FieldMap} {n : String} {c : Contribution}
    (h : (m.map Prod.fst).Nodup) : ((addContribution m n c).map Prod.fst).Nodup := by
  rw [addContribution_keys]
  split
  · exact h
  case isFalse hn => simp [List.nodup_append, h, hn]

theorem collectFields_keys_nodup (ss : List Schema) :
    ((collectFields ss).map Prod.fst).Nodup := by
  unfold collectFields
  have base : (([] : FieldMap).map Prod.fst).Nodup := by simp
  refine foldl_preserve_mem _ (fun (m : FieldMap) => (m.map Prod.fst).Nodup) ss ?_ [] base
  intro b a _ hb
  cases hk : a.kind with
  | other => simpa [hk] using hb
  | v2 =>
    simp only [hk]
    refine foldl_preserve_mem _ (fun (m : FieldMap) => (m.map Prod.fst).Nodup) a.decls ?_ b hb
    intro b' d _ hb'
    exact addContribution_nodup hb'
  | v1 =>
    simp only [hk]
    refine foldl_preserve_mem _ (fun (m : FieldMap) => (m.map Prod.fst).Nodup) a.decls ?_ b hb
    intro b' d _ hb'
    exact addContribution_nodup hb'

theorem nodup_keys_assoc {m : FieldMap} (h : (m.map Prod.fst).Nodup) {n : String}
    {a b : List Contribution} (ha : (n, a) ∈ m) (hb : (n, b) ∈ m) : a = b := by
  induction m with
  | nil => cases ha
  | cons q rest ih =>
    obtain ⟨k, v⟩ := q
    simp only [List.map_cons, List.nodup_cons] at h
    rcases List.mem_cons.mp ha with h1 | h1 <;> rcases List.mem_cons.mp hb with h2 | h2
    · exact congrArg Prod.snd (h1.trans h2.symm)
    · injection h1 with hk hv
      subst hk
      exact absurd (List.mem_map_of_mem Prod.fst h2) h.1
    · injection h2 with hk hv
      subst hk
      exact absurd (List.mem_map_of_mem Prod.fst h1) h.1
    · exact ih h.2 h1 h2

/-! ### Membership in the built core-field map -/

theorem mem_core_names {sn : List String} {fm : FieldMap} {name : String} :
    name ∈ (mergeAnalysis sn fm).2.map Prod.fst ↔
      ∃ defs, (name, defs) ∈ fm ∧ findingFor sn name defs = none := by
  rw [mergeAnalysis_eq]
  constructor
  · intro h
    obtain ⟨q, hq, he⟩ := List.mem_map.mp h
    obtain ⟨p, hp, hg⟩ := List.mem_filterMap.mp hq
    cases hf : findingFor sn p.1 p.2 with
    | some r => rw [hf] at hg; cases hg
    | none =>
      rw [hf] at hg
      injection hg with hg'
      refine ⟨p.2, ?_, ?_⟩
      · have : p.1 = name := by rw [← he, ← hg']
        rw [← this]
        exact hp
      · have : p.1 = name := by rw [← he, ← hg']
        rw [← this]
        exact hf
  · rintro ⟨defs, hmem, hnone⟩
    refine List.mem_map.mpr ⟨(name, buildCoreField sn defs), ?_, rfl⟩
    refine List.mem_filterMap.mpr ⟨(name, defs), hmem, ?_⟩
    simp only [hnone]

/-! ### The outcome of `merge_payloads` as a case split -/

theorem merge_payloads_cases (subs specs : List Schema) (cn tn : String) :
    merge_payloads subs specs cn tn =
      if (mergeAnalysis (specSchemaNames specs) (collectFields (subs ++ specs))).1.isEmpty
      then Except.ok
        ⟨cn, tn, (mergeAnalysis (specSchemaNames specs) (collectFields (subs ++ specs))).2⟩
      else Except.error
        (mergeMessage
          (mergeAnalysis (specSchemaNames specs) (collectFields (subs ++ specs))).1) :=
  rfl

theorem report_determined {sn : List String} {ss : List Schema} {r : MergeReport}
    {name : String} {defs : List Contribution}
    (hmem : (name, defs) ∈ collectFields ss)
    (hr : r ∈ (mergeAnalysis sn (collectFields ss)).1)
    (hname : r.field_name = name) :
    findingFor sn name defs = some r := by
  obtain ⟨p, hp, hf⟩ := mem_merge_reports.mp hr
  obtain ⟨pn, pd⟩ := p
  have hp1 : pn = name := ((findingFor_some_shape hf).1).symm.trans hname
  subst hp1
  have hpd : pd = defs := nodup_keys_assoc (collectFields_keys_nodup ss) hp hmem
  subst hpd
  exact hf

/-- C1: `merge` is all-or-nothing over its findings: it returns a core
schema exactly when the conflict analysis produced zero findings (and
that core schema carries exactly the analysis's core fields); when at
least one finding exists it fails with the `PayloadMergeError` message
formatted over the full finding list, and no core schema — not even the
conflict-free fields — is returned. -/
theorem merge_all_or_nothing (subs specs : List Schema) (cn tn : String) :
    (∀ cs, merge_payloads subs specs cn tn = Except.ok cs ↔
      ((mergeAnalysis (specSchemaNames specs) (collectFields (subs ++ specs))).1 = [] ∧
        cs = ⟨cn, tn,
          (mergeAnalysis (specSchemaNames specs) (collectFields (subs ++ specs))).2⟩)) ∧
    ((mergeAnalysis (specSchemaNames specs) (collectFields (subs ++ specs))).1 ≠ [] →
      merge_payloads subs specs cn tn =
        Except.error
          (mergeMessage
            (mergeAnalysis (specSchemaNames specs) (collectFields (subs ++ specs))).1)) := by
  rw [merge_payloads_cases]
  constructor
  · intro cs
    by_cases h : (mergeAnalysis (specSchemaNames specs) (collectFields (subs ++ specs))).1 = []
    · simp [h, eq_comm]
    · simp [List.isEmpty_iff, h]
  · intro h
    simp [List.isEmpty_iff, h]

/-- Witness for C1 at a concrete conflicting input: two sub schemas
disagreeing on the type of `age` make `merge` fail with the formatted
message over the full finding list. -/
theorem merge_all_or_nothing_witness :
    merge_payloads [subAgeInt, subAgeStr] [] "CorePayload" "core_payload" =
      Except.error
        (mergeMessage
          (mergeAnalysis (specSchemaNames [])
            (collectFields ([subAgeInt, subAgeStr] ++ []))).1) :=
  (merge_all_or_nothing [subAgeInt, subAgeStr] [] "CorePayload" "core_payload").2 (by decide)

/-- C2: whenever the normalized contributions of a field carry two
Python-distinct base types, merge's analysis emits a `type_mismatch`
finding for that field whose per-source snapshot covers every
contributing source (and holds only snapshots taken from the
contributions), and `merge` fails; the statement quantifies over
arbitrary sub/spec lists, so it holds for every passing order and
regardless of whether any offending schema is a spec schema. -/
theorem type_mismatch_always_flagged (subs specs : List Schema) (name : String)
    (defs : List Contribution) (c1 c2 : Contribution) (cn tn : String)
    (hmem : (name, defs) ∈ collectFields (subs ++ specs))
    (h1 : c1 ∈ defs) (h2 : c2 ∈ defs)
    (hne : tyEq (fieldBase c1) (fieldBase c2) = false) :
    (∃ r, r ∈ (mergeAnalysis (specSchemaNames specs) (collectFields (subs ++ specs))).1 ∧
      r.field_name = name ∧ r.issue = "type_mismatch" ∧
      (∀ c ∈ defs, ∃ cf, (c.src, cf) ∈ r.models) ∧
      (∀ p ∈ r.models, ∃ c ∈ defs, p.1 = c.src ∧
        p.2 = ⟨prettify_type c.raw, c.required⟩)) ∧
    ∃ msg, merge_payloads subs specs cn tn = Except.error msg := by
  have hmis := hasTypeMismatch_of_pair h1 h2 hne
  have hf : findingFor (specSchemaNames specs) name defs =
      some ⟨name, "type_mismatch", modelsOf defs⟩ := findingFor_of_mismatch hmis
  have hr : (⟨name, "type_mismatch", modelsOf defs⟩ : MergeReport) ∈
      (mergeAnalysis (specSchemaNames specs) (collectFields (subs ++ specs))).1 :=
    mem_merge_reports.mpr ⟨(name, defs), hmem, hf⟩
  refine ⟨⟨_, hr, rfl, rfl, ?_, ?_⟩, ?_⟩
  · intro c hc
    exact modelsOf_covers hc
  · intro p hp
    exact modelsOf_sound p hp
  · have hne' :
        (mergeAnalysis (specSchemaNames specs) (collectFields (subs ++ specs))).1 ≠ [] :=
      fun he => by rw [he] at hr; cases hr
    rw [merge_payloads_cases]
    rw [if_neg (by simpa [List.isEmpty_iff] using hne')]
    exact ⟨_, rfl⟩

/-- Witness for C2 at the concrete `age : int` vs `age : str` input. -/
theorem type_mismatch_always_flagged_witness :
    (∃ r, r ∈ (mergeAnalysis (specSchemaNames [])
        (collectFields ([subAgeInt, subAgeStr] ++ []))).1 ∧
      r.field_name = "age" ∧ r.issue = "type_mismatch" ∧
      (∀ c ∈ defsAge, ∃ cf, (c.src, cf) ∈ r.models) ∧
      (∀ p ∈ r.models, ∃ c ∈ defsAge, p.1 = c.src ∧
        p.2 = ⟨prettify_type c.raw, c.required⟩)) ∧
    ∃ msg, merge_payloads [subAgeInt, subAgeStr] [] "CorePayload" "core_payload" =
      Except.error msg :=
  type_mismatch_always_flagged [subAgeInt, subAgeStr] [] "age" defsAge cAgeInt cAgeStr
    "CorePayload" "core_payload" (by decide) (by decide) (by decide) (by decide)

/-- C4 (code divergence): a class exposing neither recognized
field-declaration protocol is silently skipped by the collection loop —
its fields are dropped and `merge` succeeds without any error, instead
of failing with a distinct `UnsupportedSchemaKind` error. -/
theorem extractor_silently_skips_unrecognized :
    collectFields [subLegacy] = [] ∧
    merge_payloads [subAgeInt, subLegacy] [] "CorePayload" "core_payload" =
      Except.ok ⟨"CorePayload", "core_payload",
        [("age", ⟨Ty.named "int", MergeDefault.ellipsis, []⟩)]⟩ :=
  ⟨rfl, rfl⟩

/-! ### Boolean conditions of the spec-violation rule, logically -/

theorem specRequires_iff (sn : List String) (defs : List Contribution) :
    specRequires sn defs = true ↔ ∃ c ∈ defs, c.src ∈ sn ∧ c.required = true := by
  simp [specRequires, List.any_eq_true, Bool.and_eq_true]

theorem badSubs_ne_nil_iff (sn : List String) (defs : List Contribution) :
    badSubs sn defs ≠ [] ↔
      ∃ c ∈ defs, fieldMadeOptional c = true ∧ c.src ∉ sn := by
  constructor
  · intro h
    rcases hb : badSubs sn defs with _ | ⟨s, rest⟩
    · exact absurd hb h
    · have : s ∈ badSubs sn defs := hb ▸ List.mem_cons_self _ _
      obtain ⟨c, hc, he⟩ := List.mem_map.mp this
      have hf := List.mem_filter.mp hc
      have hf2 := hf.2
      rw [Bool.and_eq_true] at hf2
      obtain ⟨hmo, hns⟩ := hf2
      refine ⟨c, hf.1, hmo, ?_⟩
      simpa using hns
  · rintro ⟨c, hc, hmo, hns⟩ h
    have : c ∈ defs.filter (fun c => fieldMadeOptional c && !sn.contains c.src) :=
      List.mem_filter.mpr ⟨hc, by simp [hmo, hns]⟩
    have : c.src ∈ badSubs sn defs := List.mem_map_of_mem Contribution.src this
    rw [h] at this
    cases this

/-- C3: for a field without a type mismatch, merge's per-field analysis
emits a `spec_violation` finding exactly when some spec-schema
contribution is required and some source whose contribution was made
optional is not itself a spec schema; when that condition holds the
finding is among merge's findings.  In particular, when every
optional-declaring source is a spec schema, no violation is raised. -/
theorem spec_violation_iff (subs specs : List Schema) (name : String)
    (defs : List Contribution)
    (hmem : (name, defs) ∈ collectFields (subs ++ specs))
    (hnm : hasTypeMismatch defs = false) :
    ((findingFor (specSchemaNames specs) name defs =
        some ⟨name, "spec_violation", modelsOf defs⟩) ↔
      ((∃ c ∈ defs, c.src ∈ specSchemaNames specs ∧ c.required = true) ∧
       (∃ c ∈ defs, fieldMadeOptional c = true ∧ c.src ∉ specSchemaNames specs))) ∧
    (((∃ c ∈ defs, c.src ∈ specSchemaNames specs ∧ c.required = true) ∧
      (∃ c ∈ defs, fieldMadeOptional c = true ∧ c.src ∉ specSchemaNames specs)) →
      (⟨name, "spec_violation", modelsOf defs⟩ : MergeReport) ∈
        (mergeAnalysis (specSchemaNames specs) (collectFields (subs ++ specs))).1) := by
  have hiff :
      (findingFor (specSchemaNames specs) name defs =
        some ⟨name, "spec_violation", modelsOf defs⟩) ↔
      ((∃ c ∈ defs, c.src ∈ specSchemaNames specs ∧ c.required = true) ∧
       (∃ c ∈ defs, fieldMadeOptional c = true ∧ c.src ∉ specSchemaNames specs)) := by
    unfold findingFor
    rw [if_neg (by simp [hnm])]
    by_cases hb :
        (specRequires (specSchemaNames specs) defs &&
          !(badSubs (specSchemaNames specs) defs).isEmpty) = true
    · rw [if_pos hb]
      rw [Bool.and_eq_true] at hb
      obtain ⟨hsr, hbs⟩ := hb
      constructor
      · intro _
        exact ⟨(specRequires_iff _ _).mp hsr,
          (badSubs_ne_nil_iff _ _).mp (by simpa [List.isEmpty_iff] using hbs)⟩
      · intro _
        rfl
    · rw [if_neg hb]
      constructor
      · intro h
        cases h
      · rintro ⟨h1, h2⟩
        exfalso
        apply hb
        rw [Bool.and_eq_true]
        refine ⟨(specRequires_iff _ _).mpr h1, ?_⟩
        have := (badSubs_ne_nil_iff (specSchemaNames specs) defs).mpr h2
        simpa [List.isEmpty_iff] using this
  refine ⟨hiff, fun h => ?_⟩
  exact mem_merge_reports.mpr ⟨(name, defs), hmem, hiff.mpr h⟩

/-- Witness for C3 at the concrete input: sub `email : Optional[str]`
against spec `email : str` (required) yields a `spec_violation`. -/
theorem spec_violation_iff_witness :
    findingFor (specSchemaNames [specRequiredUser]) "email" defsEmail =
      some ⟨"email", "spec_violation", modelsOf defsEmail⟩ :=
  ((spec_violation_iff [subContact] [specRequiredUser] "email" defsEmail
    (by decide) (by decide)).1).mpr (by decide)

/-- C5: for a conflict-free field, `final_optional` (the flag that
decides whether the built core field's annotation is wrapped in
`Optional`) is set exactly when some non-spec source declared the field
optional and no spec-schema contribution is required. -/
theorem resolved_optional_iff (sn : List String) (name : String)
    (defs : List Contribution)
    (hfree : findingFor sn name defs = none) :
    finalOptional sn defs = true ↔
      ((∃ c ∈ defs, fieldMadeOptional c = true ∧ c.src ∉ sn) ∧
       ¬ (∃ c ∈ defs, c.src ∈ sn ∧ c.required = true)) := by
  unfold finalOptional
  rw [Bool.and_eq_true]
  constructor
  · rintro ⟨h1, h2⟩
    refine ⟨(badSubs_ne_nil_iff sn defs).mp ?_, ?_⟩
    · simpa [List.isEmpty_iff] using h1
    · intro hex
      have := (specRequires_iff sn defs).mpr hex
      rw [this] at h2
      cases h2
  · rintro ⟨h1, h2⟩
    constructor
    · have := (badSubs_ne_nil_iff sn defs).mpr h1
      simpa [List.isEmpty_iff] using this
    · cases hsr : specRequires sn defs with
      | false => rfl
      | true => exact absurd ((specRequires_iff sn defs).mp hsr) h2

/-- Witness for C5: a lone optional non-spec contribution makes the
field resolved-optional. -/
theorem resolved_optional_iff_witness :
    finalOptional [] [cEmailOpt] = true :=
  (resolved_optional_iff [] "email" [cEmailOpt] (by decide)).mpr (by decide)

/-- C6 counterexample: for a sub schema declaring
`x : Union[str, int, None]` (optional), the core field's annotation is
`Optional[str]` — only the first member of the wrapped union survives —
not the `Optional` of the inner union `str or int` the claim predicts. -/
theorem resolved_type_counterexample :
    merge_payloads [subUnionNullable] [] "CorePayload" "core_payload" =
      Except.ok ⟨"CorePayload", "core_payload",
        [("x", ⟨Ty.union [UAtom.named "str", UAtom.null],
                MergeDefault.val Val.null, []⟩)]⟩ ∧
    Ty.union [UAtom.named "str", UAtom.null] ≠
      mkOptionalTy (Ty.union [UAtom.named "str", UAtom.named "int"]) :=
  ⟨rfl, by decide⟩

/-- C6 amended: for a conflict-free field, the resolved annotation is
the first contribution's raw declared type; when the field is
resolved-optional and that raw type is a named type, the annotation is
`Optional` of it, and when that raw type is a union, the annotation is
`Optional` of the union's FIRST member (which is the inner wrapped type
only for a single-member nullable wrapper — a multi-member inner union
is not preserved). -/
theorem resolved_type_amended (sn : List String) (name : String)
    (defs : List Contribution) (c : Contribution) (rest : List Contribution)
    (hdefs : defs = c :: rest)
    (hfree : findingFor sn name defs = none) :
    (finalOptional sn defs = false → (buildCoreField sn defs).ann = c.raw) ∧
    (finalOptional sn defs = true →
      (∀ s, c.raw = Ty.named s →
        (buildCoreField sn defs).ann = Ty.union [UAtom.named s, UAtom.null]) ∧
      (∀ a as, c.raw = Ty.union (a :: as) →
        (buildCoreField sn defs).ann = mkOptionalTy (atomTy a))) := by
  subst hdefs
  constructor
  · intro hfo
    simp [buildCoreField, hfo, finalTypeOf]
  · intro hfo
    constructor
    · intro s hs
      simp [buildCoreField, hfo, finalTypeOf, hs, mkOptionalTy]
    · intro a as ha
      simp [buildCoreField, hfo, finalTypeOf, ha, unionFirstArg]

/-- Witness for C6-amended: on the lone optional contribution
`email : Optional[str]`, the core annotation is `Optional` of the
union's first member `str`. -/
theorem resolved_type_amended_witness :
    (buildCoreField [] [cEmailOpt]).ann = mkOptionalTy (atomTy (UAtom.named "str")) :=
  ((resolved_type_amended [] "email" [cEmailOpt] cEmailOpt [] rfl (by decide)).2
    (by decide)).2 (UAtom.named "str") [UAtom.null] rfl

/-- C7 counterexample: for the nullable multi-member union
`Union[str, int, None]`, normalization records `was_optional = true`
but keeps the WHOLE raw union — null member included — as the base
type, refuting "the base type recorded for a nullable wrapper never
still contains the null member". -/
theorem normalization_counterexample :
    fieldMadeOptional cNullableUnion = true ∧
    fieldBase cNullableUnion =
      Ty.union [UAtom.named "str", UAtom.named "int", UAtom.null] ∧
    [UAtom.named "str", UAtom.named "int", UAtom.null].contains UAtom.null = true := by
  decide

/-- C7 amended: a union containing `None` always records
`was_optional = true`; with exactly one non-null member it unwraps to
that member (no null in the base), while with any other number of
non-null members the base stays the raw union, null included.  A
contribution not made optional keeps its raw type as base. -/
theorem normalization_amended :
    (∀ (c : Contribution) (args : List UAtom),
      c.raw = Ty.union args → args.contains UAtom.null = true →
      fieldMadeOptional c = true ∧
      (∀ a, nonNullArgs args = [a] → fieldBase c = atomTy a) ∧
      ((nonNullArgs args).length ≠ 1 → fieldBase c = Ty.union args)) ∧
    (∀ c : Contribution, fieldMadeOptional c = false → fieldBase c = c.raw) := by
  constructor
  · intro c args hraw hnull
    obtain ⟨craw, creq, cinfo, csrc⟩ := c
    simp only at hraw
    subst hraw
    have hnull' : UAtom.null ∈ args := by simpa using hnull
    refine ⟨by simp [fieldMadeOptional, hnull'], ?_, ?_⟩
    · intro a ha
      simp [fieldBase, hnull', ha]
    · intro hlen
      rcases hm : nonNullArgs args with _ | ⟨a, _ | ⟨b, t⟩⟩
      · simp [fieldBase, hnull', hm]
      · rw [hm] at hlen
        simp at hlen
      · simp [fieldBase, hnull', hm]
  · intro c hmo
    obtain ⟨craw, creq, cinfo, csrc⟩ := c
    cases craw with
    | named s => simp [fieldBase]
    | union args =>
      simp only [fieldMadeOptional] at hmo
      have hmo' : UAtom.null ∉ args := by simpa using hmo
      simp [fieldBase, hmo']

/-- Witness for C7-amended at the concrete nullable multi-member
union. -/
theorem normalization_amended_witness :
    fieldMadeOptional cNullableUnion = true ∧
    fieldBase cNullableUnion =
      Ty.union [UAtom.named "str", UAtom.named "int", UAtom.null] := by
  have h := normalization_amended.1 cNullableUnion
    [UAtom.named "str", UAtom.named "int", UAtom.null] rfl (by decide)
  exact ⟨h.1, h.2.2 (by decide)⟩

/-! ### Each field yields at most one finding -/

theorem reports_names_sublist (sn : List String) (fm : FieldMap) :
    List.Sublist ((mergeAnalysis sn fm).1.map MergeReport.field_name)
      (fm.map Prod.fst) := by
  rw [mergeAnalysis_eq]
  induction fm with
  | nil => simp
  | cons p ps ih =>
    simp only [List.filterMap_cons, List.map_cons]
    cases hf : findingFor sn p.1 p.2 with
    | none => exact List.Sublist.cons p.1 ih
    | some r =>
      rw [List.map_cons, (findingFor_some_shape hf).1]
      exact List.Sublist.cons₂ p.1 ih

theorem reports_names_nodup (sn : List String) (ss : List Schema) :
    ((mergeAnalysis sn (collectFields ss)).1.map MergeReport.field_name).Nodup :=
  (collectFields_keys_nodup ss).sublist (reports_names_sublist sn (collectFields ss))

theorem reports_per_field_unique (sn : List String) (ss : List Schema) (name : String) :
    ((mergeAnalysis sn (collectFields ss)).1.filter
      (fun r => r.field_name == name)).length ≤ 1 := by
  have hnd := reports_names_nodup sn ss
  have hcount := List.nodup_iff_count_le_one.mp hnd name
  rw [List.count, List.countP_map] at hcount
  rw [← List.countP_eq_length_filter]
  exact hcount

/-- C9: each field name carries at most one finding in merge's report
list; and for a field whose contributions exhibit a type mismatch, the
per-field analysis short-circuits to the `type_mismatch` finding — any
finding merge emits for that field is a `type_mismatch`, never a
`spec_violation`, even when the spec-violation condition also holds. -/
theorem one_finding_per_field (subs specs : List Schema) :
    (∀ name : String,
      ((mergeAnalysis (specSchemaNames specs) (collectFields (subs ++ specs))).1.filter
        (fun r => r.field_name == name)).length ≤ 1) ∧
    (∀ (name : String) (defs : List Contribution),
      (name, defs) ∈ collectFields (subs ++ specs) →
      hasTypeMismatch defs = true →
      findingFor (specSchemaNames specs) name defs =
        some ⟨name, "type_mismatch", modelsOf defs⟩ ∧
      ∀ r ∈ (mergeAnalysis (specSchemaNames specs) (collectFields (subs ++ specs))).1,
        r.field_name = name → r.issue = "type_mismatch") := by
  constructor
  · intro name
    exact reports_per_field_unique (specSchemaNames specs) (subs ++ specs) name
  · intro name defs hmem hmis
    refine ⟨findingFor_of_mismatch hmis, ?_⟩
    intro r hr hname
    have hdet := report_determined hmem hr hname
    rw [findingFor_of_mismatch hmis] at hdet
    injection hdet with h
    rw [← h]

/-- Witness for C9 at an input whose `email` field has both a type
mismatch (`Optional[str]` vs `int`) and the spec-violation condition
(spec requires, sub optional): only `type_mismatch` is produced. -/
theorem one_finding_per_field_witness :
    findingFor (specSchemaNames [specEmailInt]) "email" defsBoth =
      some ⟨"email", "type_mismatch", modelsOf defsBoth⟩ :=
  ((one_finding_per_field [subContact] [specEmailInt]).2 "email" defsBoth
    (by decide) (by decide)).1

/-- C10: the per-schema definition view displays a required field whose
pydantic default is the explicit no-default marker with
`default = null`, which is exactly how a field with an explicit default
of `None` is displayed — while the merge path maps the marker to
Ellipsis, keeping the two distinct. -/
theorem undefined_default_displayed_null (cls : Schema) (d : FieldDecl)
    (fields_data : FieldMap) (reports : List MergeReport)
    (meta : List (String × Val))
    (hkind : cls.kind = SchemaKind.v2) (hd : d ∈ cls.decls)
    (hreq : d.required = true) (hdef : d.info.default = PyDefault.undefined) :
    (∃ fj, (d.name, fj) ∈ (payload_model_to_json cls fields_data reports).definition ∧
      fj.required = true ∧ fj.default = Val.null ∧
      fj.default = displayDefault (PyDefault.val Val.null)) ∧
    mergeDefaultOf d.info = MergeDefault.ellipsis ∧
    mergeDefaultOf ⟨PyDefault.val Val.null, meta⟩ = MergeDefault.val Val.null ∧
    MergeDefault.ellipsis ≠ MergeDefault.val Val.null := by
  refine ⟨?_, by simp [mergeDefaultOf, hdef], rfl, by simp⟩
  refine ⟨⟨prettify_type d.raw, d.required, displayDefault d.info.default⟩, ?_, hreq,
    by rw [hdef]; rfl, by rw [hdef]; rfl⟩
  have hdv : (payload_model_to_json cls fields_data reports).definition =
      cls.decls.map (fun d =>
        (d.name, ⟨prettify_type d.raw, d.required, displayDefault d.info.default⟩)) := by
    simp [payload_model_to_json, definitionView, hkind]
  rw [hdv]
  exact List.mem_map.mpr ⟨d, hd, rfl⟩

/-- Witness for C10 at the spec schema's required `email : str` field. -/
theorem undefined_default_displayed_null_witness :
    mergeDefaultOf infoReq = MergeDefault.ellipsis ∧
    mergeDefaultOf ⟨PyDefault.val Val.null, []⟩ = MergeDefault.val Val.null ∧
    MergeDefault.ellipsis ≠ MergeDefault.val Val.null :=
  (undefined_default_displayed_null specRequiredUser
    ⟨"email", Ty.named "str", true, infoReq⟩ [] [] [] rfl (by decide) rfl rfl).2

/-! ### `generate_payload_reports` against `merge_payloads` -/

theorem generate_payload_reports_eq (subs specs : List Schema) :
    generate_payload_reports subs specs =
      (subs ++ specs).map (fun cls =>
        (cls.name,
          payload_model_to_json cls (collectFields (subs ++ specs))
            (reportAnalysis (specSchemaNames specs) (collectFields (subs ++ specs))))) :=
  rfl

/-- C8: `generate_payload_reports` re-runs the same extraction and
conflict analysis as `merge_payloads` (their finding lists coincide),
and a field of the aggregate appears with zero conflicts in every
schema's report exactly when the merge analysis places it in the core
field map — the map a successful `merge` returns verbatim — while it
appears with a conflict in some schema's report exactly when merge
rejects it. -/
theorem reports_merge_agree (subs specs : List Schema) (name : String)
    (hname : name ∈ (collectFields (subs ++ specs)).map Prod.fst) :
    (reportAnalysis (specSchemaNames specs) (collectFields (subs ++ specs)) =
      (mergeAnalysis (specSchemaNames specs) (collectFields (subs ++ specs))).1) ∧
    (∀ (cn tn : String) (cs : CoreSchema),
      merge_payloads subs specs cn tn = Except.ok cs →
      cs.fields =
        (mergeAnalysis (specSchemaNames specs) (collectFields (subs ++ specs))).2) ∧
    ((name ∈ (mergeAnalysis (specSchemaNames specs)
        (collectFields (subs ++ specs))).2.map Prod.fst) ↔
      (∀ entry ∈ generate_payload_reports subs specs,
        ∀ r ∈ entry.2.conflicts, r.field_name ≠ name)) ∧
    ((name ∉ (mergeAnalysis (specSchemaNames specs)
        (collectFields (subs ++ specs))).2.map Prod.fst) ↔
      (∃ entry ∈ generate_payload_reports subs specs,
        ∃ r ∈ entry.2.conflicts, r.field_name = name)) := by
  have hagree := analyses_agree (specSchemaNames specs) (collectFields (subs ++ specs))
  have hmain :
      (name ∈ (mergeAnalysis (specSchemaNames specs)
        (collectFields (subs ++ specs))).2.map Prod.fst) ↔
      (∀ entry ∈ generate_payload_reports subs specs,
        ∀ r ∈ entry.2.conflicts, r.field_name ≠ name) := by
    constructor
    · intro hA
      obtain ⟨defs0, hmem0, hnone0⟩ := mem_core_names.mp hA
      intro entry hentry r hr hre
      rw [generate_payload_reports_eq] at hentry
      obtain ⟨cls, hcls, hEq⟩ := List.mem_map.mp hentry
      subst hEq
      have hrrep : r ∈ (mergeAnalysis (specSchemaNames specs)
          (collectFields (subs ++ specs))).1 := by
        have := (List.mem_filter.mp hr).1
        rwa [hagree] at this
      have hdet := report_determined hmem0 hrrep hre
      rw [hnone0] at hdet
      cases hdet
    · intro hB
      obtain ⟨p, hp, hp1⟩ := List.mem_map.mp hname
      obtain ⟨pn, defs⟩ := p
      simp only at hp1
      have hp' : (name, defs) ∈ collectFields (subs ++ specs) := by
        rw [← hp1]
        exact hp
      cases hf : findingFor (specSchemaNames specs) name defs with
      | none => exact mem_core_names.mpr ⟨defs, hp', hf⟩
      | some r =>
        exfalso
        have hrmem : r ∈ (mergeAnalysis (specSchemaNames specs)
            (collectFields (subs ++ specs))).1 :=
          mem_merge_reports.mpr ⟨(name, defs), hp', hf⟩
        have hshape := findingFor_some_shape hf
        obtain ⟨hne, hsrc⟩ := collectFields_inv (subs ++ specs) (name, defs) hp'
        rcases hdefs : defs with _ | ⟨c, crest⟩
        · exact hne hdefs
        · have hcmem : c ∈ defs := hdefs ▸ List.mem_cons_self c crest
          obtain ⟨cls, hcls, hclsname⟩ := List.mem_map.mp (hsrc c hcmem)
          have hentry :
              (cls.name,
                payload_model_to_json cls (collectFields (subs ++ specs))
                  (reportAnalysis (specSchemaNames specs)
                    (collectFields (subs ++ specs)))) ∈
                generate_payload_reports subs specs := by
            rw [generate_payload_reports_eq]
            exact List.mem_map.mpr ⟨cls, hcls, rfl⟩
          have hconf : r ∈ (payload_model_to_json cls (collectFields (subs ++ specs))
              (reportAnalysis (specSchemaNames specs)
                (collectFields (subs ++ specs)))).conflicts := by
            refine List.mem_filter.mpr ⟨by rw [hagree]; exact hrmem, ?_⟩
            obtain ⟨cf, hcf⟩ := modelsOf_covers hcmem
            have hkey : cls.name ∈ r.models.map Prod.fst := by
              rw [hshape.2.1, hclsname]
              exact List.mem_map_of_mem Prod.fst hcf
            simpa using hkey
          exact hB _ hentry r hconf hshape.1
  refine ⟨hagree, ?_, hmain, ?_⟩
  · intro cn tn cs hok
    rw [merge_payloads_cases] at hok
    split at hok
    · injection hok with h
      rw [← h]
    · cases hok
  · constructor
    · intro hA
      by_contra hnex
      push_neg at hnex
      exact hA (hmain.mpr hnex)
    · rintro ⟨entry, hentry, r, hr, hre⟩ hA
      exact (hmain.mp hA) entry hentry r hr hre

/-- Witness for C8: with two sub schemas disagreeing on `age`, the
field is rejected by merge's analysis exactly as some schema's report
carries a conflict naming it. -/
theorem reports_merge_agree_witness :
    "age" ∉ (mergeAnalysis (specSchemaNames [])
      (collectFields ([subAgeInt, subAgeStr] ++ []))).2.map Prod.fst :=
  (reports_merge_agree [subAgeInt, subAgeStr] [] "age" (by decide)).2.2.2.mpr (by decide)
